import Mathlib

/-!
Verification of the core of `abcd_adr_waveform_exporter.cpp`.

The development shallowly embeds the three components of the exporter:

* `read_waveform_packet` — the bounds-checked waveform-packet decoder
  (source lines 47–73), including the 32-bit wrap of the
  `sample_count * 2` bounds check on the source platform;
* the frame scanner shared by both export drivers (topic accumulation up
  to a space byte, `rfind("_s")`, `std::stoi`, body extraction);
* the two export drivers `export_single_channel` (lines 89–165) and
  `export_all_channels` (lines 171–246), with console/file I/O modelled
  by the returned rows and per-channel sink states.

Byte buffers and streams are `List Nat` whose entries denote bytes;
reads normalise with `% 256` exactly as `memcpy` into `uint8_t` does.
An uncaught C++ exception (from `std::stoi` or the `std::vector`
constructor) is modelled by an `aborted` flag in the run results.
-/

/-- One decoded waveform record (struct `WaveformPacket`, source lines 39–45).
`samples` holds the stored (post-trim) sample sequence. -/
structure WaveformPacket where
  timestamp : Nat
  channel : Nat
  sample_count : Nat
  gates_count : Nat
  samples : List Nat
deriving DecidableEq

/-- Byte at index `i` of a byte buffer (a `char` holds an 8-bit value). -/
def byteAt (buffer : List Nat) (i : Nat) : Nat := buffer.getD i 0 % 256

/-- Little-endian unsigned integer formed by `n` bytes starting at `pos`
(the effect of `memcpy` into a fixed-width unsigned integer on the
little-endian source platform). -/
def readLE (buffer : List Nat) (pos : Nat) : Nat → Nat
  | 0 => 0
  | n + 1 => byteAt buffer pos + 256 * readLE buffer (pos + 1) n

/-- The `n` raw 16-bit samples read in wire order starting at `pos`
(the loop at source lines 63–66). -/
def rawSamples (buffer : List Nat) (pos : Nat) (n : Nat) : List Nat :=
  (List.range n).map (fun i => readLE buffer (pos + 2 * i) 2)

/-- `read_waveform_packet` (source lines 47–73).  Returns the decoded
packet (or `none` on a failed bounds check) together with the final value
of the by-reference cursor `pos`.  The second bounds check multiplies the
32-bit `sample_count` by `2` in `unsigned int` arithmetic, hence the
`% 4294967296`; the cursor itself is `size_t` and does not wrap. -/
def read_waveform_packet (buffer : List Nat) (pos : Nat) :
    Option WaveformPacket × Nat :=
  if buffer.length < pos + 14 then (none, pos)
  else
    let sample_count := readLE buffer (pos + 9) 4
    if buffer.length < pos + 14 + sample_count * 2 % 4294967296 then (none, pos + 14)
    else
      let raw := rawSamples buffer (pos + 14) sample_count
      (some { timestamp := readLE buffer pos 8
              channel := byteAt buffer (pos + 8)
              sample_count := sample_count
              gates_count := byteAt buffer (pos + 13)
              samples := if 4 ≤ raw.length then raw.take (raw.length - 4) else raw },
        pos + 14 + sample_count * 2)

theorem length_rawSamples (buffer : List Nat) (pos n : Nat) :
    (rawSamples buffer pos n).length = n := by
  simp [rawSamples]

theorem byteAt_lt (buffer : List Nat) (i : Nat) : byteAt buffer i < 256 :=
  Nat.mod_lt _ (by norm_num)

theorem readLE_lt (buffer : List Nat) (pos : Nat) :
    ∀ n, readLE buffer pos n < 256 ^ n := by
  intro n
  induction n generalizing pos with
  | zero => simp [readLE]
  | succ n ih =>
    have h1 := byteAt_lt buffer pos
    have h2 := ih (pos + 1)
    calc readLE buffer pos (n + 1)
        = byteAt buffer pos + 256 * readLE buffer (pos + 1) n := rfl
      _ < 256 + 256 * readLE buffer (pos + 1) n := by omega
      _ ≤ 256 + 256 * (256 ^ n - 1) := by
          have : readLE buffer (pos + 1) n ≤ 256 ^ n - 1 := by omega
          omega
      _ ≤ 256 ^ (n + 1) := by
          have : 1 ≤ 256 ^ n := Nat.one_le_pow _ _ (by norm_num)
          rw [pow_succ]
          omega

/-- On success the cursor ends exactly `14 + 2 * sample_count` bytes past
its entry value, and the 14-byte header region was in bounds. -/
theorem read_some_pos {buffer : List Nat} {pos p' : Nat} {pkt : WaveformPacket}
    (h : read_waveform_packet buffer pos = (some pkt, p')) :
    pos + 14 ≤ buffer.length ∧
    pkt.sample_count = readLE buffer (pos + 9) 4 ∧
    p' = pos + 14 + pkt.sample_count * 2 := by
  simp only [read_waveform_packet] at h
  split_ifs at h with h1 h2 h3
  · simp at h
  · simp at h
  · injection h with ha hb
    injection ha with ha
    subst ha
    exact ⟨by omega, rfl, hb.symm⟩
  · injection h with ha hb
    injection ha with ha
    subst ha
    exact ⟨by omega, rfl, hb.symm⟩

/-- Every successful decode has an 8-bit channel value. -/
theorem read_channel_lt {buffer : List Nat} {pos p' : Nat} {pkt : WaveformPacket}
    (h : read_waveform_packet buffer pos = (some pkt, p')) :
    pkt.channel < 256 := by
  simp only [read_waveform_packet] at h
  split_ifs at h with h1 h2 h3
  · simp at h
  · simp at h
  · injection h with ha hb
    injection ha with ha
    subst ha
    exact byteAt_lt buffer (pos + 8)
  · injection h with ha hb
    injection ha with ha
    subst ha
    exact byteAt_lt buffer (pos + 8)

/-- On a failed decode the cursor either did not move (header region out
of bounds) or moved exactly 14 bytes (sample region check failed). -/
theorem read_none_pos {buffer : List Nat} {pos p' : Nat}
    (h : read_waveform_packet buffer pos = (none, p')) :
    (buffer.length < pos + 14 ∧ p' = pos) ∨
    (pos + 14 ≤ buffer.length ∧ p' = pos + 14) := by
  simp only [read_waveform_packet] at h
  split_ifs at h with h1 h2 h3
  · injection h with ha hb
    exact Or.inl ⟨h1, hb.symm⟩
  · injection h with ha hb
    exact Or.inr ⟨by omega, hb.symm⟩
  · simp at h
  · simp at h

/-- The demultiplexing loop over one waveform-topic body (source lines
138–143 / 211–216 without the routing): repeatedly decode packets from
`pos` until the body is exhausted or a decode fails, returning the
decoded packets in wire order and the final cursor position. -/
def demuxLoop (buffer : List Nat) (pos : Nat) : List WaveformPacket × Nat :=
  if h : pos < buffer.length then
    match hr : read_waveform_packet buffer pos with
    | (none, p') => ([], p')
    | (some pkt, p') =>
      let r := demuxLoop buffer p'
      (pkt :: r.1, r.2)
  else ([], pos)
termination_by buffer.length - pos
decreasing_by
  have := read_some_pos hr
  omega

/-- Each 2-byte sample read performed for a packet with the given sample
count, starting at `pos1`, stays inside the buffer. -/
def sampleReadsInBounds (buffer : List Nat) (pos1 n : Nat) : Prop :=
  ∀ i < n, pos1 + 2 * i + 2 ≤ buffer.length

/-- A 14-byte body whose `sample_count` field decodes to `2^31`:
8 timestamp bytes, 1 channel byte, the little-endian bytes of
`2147483648`, and 1 gates byte.  No sample bytes follow. -/
def overflowBuf : List Nat := [0, 0, 0, 0, 0, 0, 0, 0, 0, 0, 0, 0, 128, 0]

/-- Claim C2 (code_bug): the sample-region bounds check computes
`sample_count * 2` in 32-bit arithmetic, so for `sample_count = 2^31`
the product wraps to `0` and the check passes even though the 14-byte
buffer holds none of the `2^32` sample bytes; the decoder then proceeds
(in the C++, reading past the end of the buffer).  The claim that every
packet with insufficient remaining bytes is rejected is therefore false. -/
theorem C2_overflow_code_bug :
    ((read_waveform_packet overflowBuf 0).1.map (fun p => p.sample_count)
        = some 2147483648) ∧
    overflowBuf.length < 14 + 2 * 2147483648 ∧
    ¬ sampleReadsInBounds overflowBuf 14 2147483648 := by
  refine ⟨by decide, by decide, fun hcontra => ?_⟩
  have h0 := hcontra 0 (by norm_num)
  simp [overflowBuf] at h0

/-- Claim C3 (confirmed): for every successfully decoded packet, if
`sample_count ≥ 4` the stored sample sequence consists of exactly the
first `sample_count - 4` raw samples in wire order, and if
`sample_count < 4` it is the full raw sample sequence, untrimmed. -/
theorem C3_trim_correct (buffer : List Nat) (pos : Nat) (pkt : WaveformPacket)
    (p' : Nat) (h : read_waveform_packet buffer pos = (some pkt, p')) :
    (4 ≤ pkt.sample_count →
      pkt.samples.length = pkt.sample_count - 4 ∧
      pkt.samples
        = (rawSamples buffer (pos + 14) pkt.sample_count).take (pkt.sample_count - 4)) ∧
    (pkt.sample_count < 4 →
      pkt.samples = rawSamples buffer (pos + 14) pkt.sample_count) := by
  obtain ⟨t, ch, sc, g, s⟩ := pkt
  simp only [read_waveform_packet] at h
  split_ifs at h with h1 h2 h3
  · simp at h
  · simp at h
  · rw [length_rawSamples] at h3
    injection h with ha hb
    injection ha with ha2
    injection ha2 with e1 e2 e3 e4 e5
    subst e1
    subst e2
    subst e3
    subst e4
    subst e5
    dsimp only
    rw [length_rawSamples]
    refine ⟨fun h4 => ⟨?_, rfl⟩, fun h4 => absurd h3 (by omega)⟩
    rw [List.length_take, length_rawSamples]
    omega
  · rw [length_rawSamples] at h3
    injection h with ha hb
    injection ha with ha2
    injection ha2 with e1 e2 e3 e4 e5
    subst e1
    subst e2
    subst e3
    subst e4
    subst e5
    dsimp only
    exact ⟨fun h4 => absurd h4 h3, fun h4 => rfl⟩

/-- The round-trip example of spec §8: `sample_count = 6`, raw samples
`10,20,30,40,50,60` for channel 2, timestamp 0, gates 0, encoded
little-endian. -/
def roundTripBufA : List Nat :=
  [0, 0, 0, 0, 0, 0, 0, 0,
   2,
   6, 0, 0, 0,
   0,
   10, 0, 20, 0, 30, 0, 40, 0, 50, 0, 60, 0]

theorem C3_trim_correct_witness :
    (4 ≤ (6 : Nat)) ∧
    ([10, 20] : List Nat).length = 6 - 4 ∧
    ([10, 20] : List Nat) = (rawSamples roundTripBufA 14 6).take (6 - 4) := by
  have h : read_waveform_packet roundTripBufA 0
      = (some { timestamp := 0, channel := 2, sample_count := 6, gates_count := 0,
                samples := [10, 20] }, 26) := by decide
  have h2 := (C3_trim_correct roundTripBufA 0 _ 26 h).1 (by decide)
  exact ⟨by decide, h2.1, h2.2⟩

/-- A 14-byte body declaring one sample: the header fits exactly, the
sample region check fails after the cursor has advanced 14 bytes. -/
def shortBuf : List Nat := [0, 0, 0, 0, 0, 0, 0, 0, 0, 1, 0, 0, 0, 0]

/-- Claim C7 (counterexample): on this buffer the decode fails, yet the
cursor exits at 14, not at its entry value 0 — the header reads advanced
it before the sample-region check failed. -/
theorem C7_pos_advance_counterexample :
    (read_waveform_packet shortBuf 0).1 = none ∧
    (read_waveform_packet shortBuf 0).2 ≠ 0 := by decide

/-- Claim C7 (corrected): a failing decode leaves the cursor unchanged
only when the 14-byte header region itself exceeds the buffer; when the
header fits but the sample region check fails, the cursor exits advanced
by exactly 14. -/
theorem C7_pos_on_failure_amended (buffer : List Nat) (pos p' : Nat)
    (h : read_waveform_packet buffer pos = (none, p')) :
    (buffer.length < pos + 14 ∧ p' = pos) ∨
    (pos + 14 ≤ buffer.length ∧ p' = pos + 14) :=
  read_none_pos h

theorem C7_pos_on_failure_amended_witness :
    (([] : List Nat).length < 0 + 14 ∧ 0 = 0) ∨
    (0 + 14 ≤ ([] : List Nat).length ∧ 0 = 0 + 14) :=
  C7_pos_on_failure_amended [] 0 0 (by decide)

/-- Whitespace in the default C locale, as skipped by `std::stoi` via
`strtol`. -/
def isSpaceByte (b : Nat) : Bool := b == 32 || (9 ≤ b && b ≤ 13)

/-- ASCII decimal digit. -/
def isDigitByte (b : Nat) : Bool := 48 ≤ b && b ≤ 57

/-- Longest leading run of decimal digits. -/
def takeDigits : List Nat → List Nat
  | [] => []
  | b :: r => if isDigitByte b then b :: takeDigits r else []

/-- Value of a digit run, most significant first. -/
def digitsVal (ds : List Nat) : Nat := ds.foldl (fun a d => a * 10 + (d - 48)) 0

/-- Digits-and-range part of `std::stoi`: `none` models a thrown
`std::invalid_argument` (no digits) or `std::out_of_range` (outside
`int`). -/
def stoiCore (s : List Nat) (sign : Int) : Option Int :=
  let ds := takeDigits s
  if ds.isEmpty then none
  else
    let v : Int := sign * digitsVal ds
    if v < -2147483648 ∨ 2147483647 < v then none else some v

/-- `std::stoi` on a byte string: skip C-locale whitespace, accept one
optional sign, then require at least one decimal digit; trailing
non-digits are ignored.  `none` models a thrown exception. -/
def stoiModel (s : List Nat) : Option Int :=
  match s.dropWhile isSpaceByte with
  | 43 :: r => stoiCore r 1
  | 45 :: r => stoiCore r (-1)
  | r => stoiCore r 1

/-- Start index of the last occurrence of `"_s"` in the topic
(`topic.rfind("_s")`, source lines 123/196). -/
def lastUS (topic : List Nat) : Option Nat :=
  (List.range topic.length).reverse.find?
    (fun i => topic.getD i 0 == 95 && topic.getD (i + 1) 0 == 115)

/-- The topic text after the last `"_s"`, or `none` when the topic has no
`"_s"` at all (`topic.substr(size_pos + 2)`). -/
def suffixAfterLastUS (topic : List Nat) : Option (List Nat) :=
  (lastUS topic).map (fun i => topic.drop (i + 2))

/-- The bytes of `"data_abcd_waveforms"`. -/
def wfTopicBytes : List Nat :=
  [100, 97, 116, 97, 95, 97, 98, 99, 100, 95, 119, 97, 118, 101, 102, 111, 114, 109, 115]

/-- Does the second list start with the first
(`topic.find("data_abcd_waveforms") == 0`)? -/
def startsWithBytes : List Nat → List Nat → Bool
  | [], _ => true
  | _ :: _, [] => false
  | p :: ps, b :: bs => p == b && startsWithBytes ps bs

/-- Is this topic a waveform topic (source lines 137/210)? -/
def topicIsWaveform (topic : List Nat) : Bool := startsWithBytes wfTopicBytes topic

/-- Result of a single-channel export run: the export counter, the CSV
rows written for the target channel (each row the stored sample list of
one packet), and whether the run aborted on an uncaught exception. -/
structure RunResult where
  exported : Nat
  rows : List (List Nat)
  aborted : Bool
deriving DecidableEq

/-- Inner packet loop of `export_single_channel` (source lines 138–154):
process packets of one body from `pos`, writing rows for the target
channel; the `Bool` result records whether `goto done` fired (the
`max_waveforms` limit was reached). -/
def runBodySingle (cid M : Int) (buffer : List Nat) (pos : Nat) (e : Nat)
    (rows : List (List Nat)) : Nat × List (List Nat) × Bool :=
  if h : pos < buffer.length then
    match hr : read_waveform_packet buffer pos with
    | (none, _) => (e, rows, false)
    | (some pkt, p') =>
      if (pkt.channel : Int) = cid then
        if 0 < M ∧ M ≤ (e : Int) + 1 then (e + 1, rows ++ [pkt.samples], true)
        else runBodySingle cid M buffer p' (e + 1) (rows ++ [pkt.samples])
      else runBodySingle cid M buffer p' e rows
  else (e, rows, false)
termination_by buffer.length - pos
decreasing_by
  · have := read_some_pos hr
    omega
  · have := read_some_pos hr
    omega

/-- The `while (in.get(c))` loop of `export_single_channel` (source lines
117–158) with the accumulated topic and the running counter/rows as
state.  An unparseable size suffix (`std::stoi` throw) or a negative
parsed size (`std::vector` length error) aborts the run; a body read
past end of stream ends it cleanly. -/
def runSingleAux (cid M : Int) (stream topic : List Nat) (e : Nat)
    (rows : List (List Nat)) : RunResult :=
  match stream with
  | [] => ⟨e, rows, false⟩
  | c :: rest =>
    if c ≠ 32 then runSingleAux cid M rest (topic ++ [c]) e rows
    else
      match suffixAfterLastUS topic with
      | none => runSingleAux cid M rest [] e rows
      | some suf =>
        match stoiModel suf with
        | none => ⟨e, rows, true⟩
        | some n =>
          if n < 0 then ⟨e, rows, true⟩
          else if rest.length < n.toNat then ⟨e, rows, false⟩
          else if topicIsWaveform topic then
            match runBodySingle cid M (rest.take n.toNat) 0 e rows with
            | (e', rows', true) => ⟨e', rows', false⟩
            | (e', rows', false) => runSingleAux cid M (rest.drop n.toNat) [] e' rows'
          else runSingleAux cid M (rest.drop n.toNat) [] e rows
termination_by stream.length
decreasing_by
  · simp
  · simp
  · simp [List.length_drop]
    omega
  · simp [List.length_drop]
    omega

/-- `export_single_channel` (source lines 89–165) on an in-memory
stream: channel/limit arguments as read from the CLI, console and file
I/O represented by the returned `RunResult`. -/
def export_single_channel (channel_id max_waveforms : Int) (stream : List Nat) :
    RunResult :=
  runSingleAux channel_id max_waveforms stream [] 0 []

/-- Per-channel sink states of the all-channels driver: channel key,
export count, rows written — the entries of the `outputs` / `counts`
maps of source lines 184–185, which always share one key set. -/
abbrev Sinks := List (Int × Nat × List (List Nat))

/-- `outputs.count(ch)` / map lookup. -/
def lookupSink : Sinks → Int → Option (Nat × List (List Nat))
  | [], _ => none
  | s :: sks, ch => if s.1 = ch then some s.2 else lookupSink sks ch

/-- Store a sink state under a key: replace it if present, create it
otherwise. -/
def setSink : Sinks → Int → Nat × List (List Nat) → Sinks
  | [], ch, v => [(ch, v)]
  | s :: sks, ch, v => if s.1 = ch then (ch, v) :: sks else s :: setSink sks ch v

/-- The cap check and write of source lines 228–231: write the row and
bump the count when `max_per_channel <= 0 || counts[ch] < max_per_channel`. -/
def sinkUpdate (L : Int) (c : Nat) (rows : List (List Nat)) (samples : List Nat) :
    Nat × List (List Nat) :=
  if L ≤ 0 ∨ (c : Int) < L then (c + 1, rows ++ [samples]) else (c, rows)

/-- Route one non-excluded packet (source lines 221–231): create the
channel sink on first use (count 0), then apply the cap check and write. -/
def routeStep (L : Int) (sinks : Sinks) (ch : Int) (samples : List Nat) : Sinks :=
  match lookupSink sinks ch with
  | none => setSink sinks ch (sinkUpdate L 0 [] samples)
  | some (c, rows) => setSink sinks ch (sinkUpdate L c rows samples)

/-- Result of an all-channels export run. -/
structure AllResult where
  sinks : Sinks
  aborted : Bool
deriving DecidableEq

/-- Inner packet loop of `export_all_channels` (source lines 211–232):
decode packets, skip the excluded channel, route the rest. -/
def runBodyAll (L excl : Int) (buffer : List Nat) (pos : Nat) (sinks : Sinks) :
    Sinks :=
  if h : pos < buffer.length then
    match hr : read_waveform_packet buffer pos with
    | (none, _) => sinks
    | (some pkt, p') =>
      if (pkt.channel : Int) = excl then runBodyAll L excl buffer p' sinks
      else runBodyAll L excl buffer p' (routeStep L sinks (pkt.channel : Int) pkt.samples)
  else sinks
termination_by buffer.length - pos
decreasing_by
  · have := read_some_pos hr
    omega
  · have := read_some_pos hr
    omega

/-- The `while (in.get(c))` loop of `export_all_channels` (source lines
190–236), same framing as the single-channel driver but with per-channel
sinks and no global stop. -/
def runAllAux (L excl : Int) (stream topic : List Nat) (sinks : Sinks) : AllResult :=
  match stream with
  | [] => ⟨sinks, false⟩
  | c :: rest =>
    if c ≠ 32 then runAllAux L excl rest (topic ++ [c]) sinks
    else
      match suffixAfterLastUS topic with
      | none => runAllAux L excl rest [] sinks
      | some suf =>
        match stoiModel suf with
        | none => ⟨sinks, true⟩
        | some n =>
          if n < 0 then ⟨sinks, true⟩
          else if rest.length < n.toNat then ⟨sinks, false⟩
          else if topicIsWaveform topic then
            runAllAux L excl (rest.drop n.toNat) []
              (runBodyAll L excl (rest.take n.toNat) 0 sinks)
          else runAllAux L excl (rest.drop n.toNat) [] sinks
termination_by stream.length
decreasing_by
  · simp
  · simp
  · simp [List.length_drop]
    omega
  · simp [List.length_drop]
    omega

/-- `export_all_channels` (source lines 171–246) on an in-memory stream. -/
def export_all_channels (max_per_channel exclude_channel : Int)
    (stream : List Nat) : AllResult :=
  runAllAux max_per_channel exclude_channel stream [] []

/-- Mode-independent view of the frame scan: the sequence of waveform
packets the run decodes, in order, together with the abort flag.  Same
framing logic as the drivers, with the per-packet processing left out. -/
def scanPacketsAux (stream topic : List Nat) : List WaveformPacket × Bool :=
  match stream with
  | [] => ([], false)
  | c :: rest =>
    if c ≠ 32 then scanPacketsAux rest (topic ++ [c])
    else
      match suffixAfterLastUS topic with
      | none => scanPacketsAux rest []
      | some suf =>
        match stoiModel suf with
        | none => ([], true)
        | some n =>
          if n < 0 then ([], true)
          else if rest.length < n.toNat then ([], false)
          else if topicIsWaveform topic then
            let ps := (demuxLoop (rest.take n.toNat) 0).1
            let r := scanPacketsAux (rest.drop n.toNat) []
            (ps ++ r.1, r.2)
          else scanPacketsAux (rest.drop n.toNat) []
termination_by stream.length
decreasing_by
  · simp
  · simp
  · simp [List.length_drop]
    omega
  · simp [List.length_drop]
    omega

/-- The packets decoded over a whole run, starting from an empty topic. -/
def scanPackets (stream : List Nat) : List WaveformPacket × Bool :=
  scanPacketsAux stream []

/-- Single-channel per-packet processing as a fold over a packet list:
count and write matching packets, with the `Bool` flagging that the
`max_waveforms` limit fired. -/
def foldSingle (cid M : Int) : List WaveformPacket → Nat → List (List Nat) →
    Nat × List (List Nat) × Bool
  | [], e, rows => (e, rows, false)
  | p :: ps, e, rows =>
    if (p.channel : Int) = cid then
      if 0 < M ∧ M ≤ (e : Int) + 1 then (e + 1, rows ++ [p.samples], true)
      else foldSingle cid M ps (e + 1) (rows ++ [p.samples])
    else foldSingle cid M ps e rows

/-- Compose the scan view with the single-channel fold: the run aborts
exactly when the scan aborted and the limit did not stop the run first. -/
def mkSingleResult (cid M : Int) (sc : List WaveformPacket × Bool) (e : Nat)
    (rows : List (List Nat)) : RunResult :=
  let r := foldSingle cid M sc.1 e rows
  ⟨r.1, r.2.1, !r.2.2 && sc.2⟩

/-- All-channels per-packet processing as a fold over a packet list. -/
def routeFold (L excl : Int) (sinks : Sinks) (ps : List WaveformPacket) : Sinks :=
  ps.foldl
    (fun s p => if (p.channel : Int) = excl then s
                else routeStep L s (p.channel : Int) p.samples)
    sinks

theorem foldSingle_append (cid M : Int) (xs ys : List WaveformPacket) :
    ∀ e rows,
      foldSingle cid M (xs ++ ys) e rows =
        (let r := foldSingle cid M xs e rows
         if r.2.2 then r else foldSingle cid M ys r.1 r.2.1) := by
  induction xs with
  | nil => intro e rows; simp [foldSingle]
  | cons p ps ih =>
    intro e rows
    simp only [List.cons_append, foldSingle]
    by_cases hc : (p.channel : Int) = cid
    · simp only [if_pos hc]
      by_cases hm : 0 < M ∧ M ≤ (e : Int) + 1
      · simp [if_pos hm]
      · simp only [if_neg hm]
        exact ih (e + 1) (rows ++ [p.samples])
    · simp only [if_neg hc]
      exact ih e rows

theorem runBodySingle_eq_fold (cid M : Int) (buffer : List Nat) (pos : Nat)
    (e : Nat) (rows : List (List Nat)) :
    runBodySingle cid M buffer pos e rows
      = foldSingle cid M (demuxLoop buffer pos).1 e rows := by
  induction pos, e, rows using runBodySingle.induct cid M buffer with
  | case1 pos e rows h p' hr =>
    rw [runBodySingle.eq_def, demuxLoop.eq_def]
    simp only [dif_pos h]
    split <;> simp_all [foldSingle]
  | case2 pos e rows h pkt p' hr hc hm =>
    rw [runBodySingle.eq_def, demuxLoop.eq_def]
    simp only [dif_pos h]
    split <;> simp_all [foldSingle]
  | case3 pos e rows h pkt p' hr hc hm ih =>
    rw [runBodySingle.eq_def, demuxLoop.eq_def]
    simp only [dif_pos h]
    split <;> simp_all [foldSingle]
  | case4 pos e rows h pkt p' hr hc ih =>
    rw [runBodySingle.eq_def, demuxLoop.eq_def]
    simp only [dif_pos h]
    split <;> simp_all [foldSingle]
  | case5 pos e rows h =>
    rw [runBodySingle.eq_def, demuxLoop.eq_def]
    simp only [dif_neg h]
    simp [foldSingle]

theorem runBodyAll_eq_fold (L excl : Int) (buffer : List Nat) (pos : Nat)
    (sinks : Sinks) :
    runBodyAll L excl buffer pos sinks
      = routeFold L excl sinks (demuxLoop buffer pos).1 := by
  induction pos, sinks using runBodyAll.induct L excl buffer with
  | case1 pos sinks h p' hr =>
    rw [runBodyAll.eq_def, demuxLoop.eq_def]
    simp only [dif_pos h]
    split <;> simp_all [routeFold]
  | case2 pos sinks h pkt p' hr hc ih =>
    rw [runBodyAll.eq_def, demuxLoop.eq_def]
    simp only [dif_pos h]
    split <;> simp_all [routeFold]
  | case3 pos sinks h pkt p' hr hc ih =>
    rw [runBodyAll.eq_def, demuxLoop.eq_def]
    simp only [dif_pos h]
    split <;> simp_all [routeFold]
  | case4 pos sinks h =>
    rw [runBodyAll.eq_def, demuxLoop.eq_def]
    simp only [dif_neg h]
    simp [routeFold]

theorem runSingleAux_spec (cid M : Int) (stream topic : List Nat) (e : Nat)
    (rows : List (List Nat)) :
    runSingleAux cid M stream topic e rows
      = mkSingleResult cid M (scanPacketsAux stream topic) e rows := by
  induction stream, topic, e, rows using runSingleAux.induct cid M with
  | case1 topic e rows =>
    rw [runSingleAux.eq_def, scanPacketsAux.eq_def]
    simp [mkSingleResult, foldSingle]
  | case2 topic e rows b r hb ih =>
    rw [runSingleAux.eq_def, scanPacketsAux.eq_def]
    simp only [if_pos hb]
    exact ih
  | case3 topic e rows b r hb hsuf ih =>
    rw [runSingleAux.eq_def, scanPacketsAux.eq_def]
    simp only [if_neg hb, hsuf]
    exact ih
  | case4 topic e rows b r hb suf hsuf hstoi =>
    rw [runSingleAux.eq_def, scanPacketsAux.eq_def]
    simp only [if_neg hb, hsuf, hstoi]
    simp [mkSingleResult, foldSingle]
  | case5 topic e rows b r hb suf hsuf n hstoi hneg =>
    rw [runSingleAux.eq_def, scanPacketsAux.eq_def]
    simp only [if_neg hb, hsuf, hstoi, if_pos hneg]
    simp [mkSingleResult, foldSingle]
  | case6 topic e rows b r hb suf hsuf n hstoi hneg hlen =>
    rw [runSingleAux.eq_def, scanPacketsAux.eq_def]
    simp only [if_neg hb, hsuf, hstoi, if_neg hneg, if_pos hlen]
    simp [mkSingleResult, foldSingle]
  | case7 topic e rows b r hb suf hsuf n hstoi hneg hlen hwf e' rows' hbody =>
    rw [runSingleAux.eq_def, scanPacketsAux.eq_def]
    simp only [if_neg hb, hsuf, hstoi, if_neg hneg, if_neg hlen, if_pos hwf, hbody]
    have hfold := runBodySingle_eq_fold cid M (List.take n.toNat r) 0 e rows
    rw [hbody] at hfold
    simp [mkSingleResult, foldSingle_append, ← hfold]
  | case8 topic e rows b r hb suf hsuf n hstoi hneg hlen hwf e' rows' hbody ih =>
    rw [runSingleAux.eq_def, scanPacketsAux.eq_def]
    simp only [if_neg hb, hsuf, hstoi, if_neg hneg, if_neg hlen, if_pos hwf, hbody]
    have hfold := runBodySingle_eq_fold cid M (List.take n.toNat r) 0 e rows
    rw [hbody] at hfold
    rw [ih]
    simp [mkSingleResult, foldSingle_append, ← hfold]
  | case9 topic e rows b r hb suf hsuf n hstoi hneg hlen hwf ih =>
    rw [runSingleAux.eq_def, scanPacketsAux.eq_def]
    simp only [if_neg hb, hsuf, hstoi, if_neg hneg, if_neg hlen, if_neg hwf]
    exact ih

theorem runAllAux_spec (L excl : Int) (stream topic : List Nat) (sinks : Sinks) :
    runAllAux L excl stream topic sinks
      = ⟨routeFold L excl sinks (scanPacketsAux stream topic).1,
         (scanPacketsAux stream topic).2⟩ := by
  induction stream, topic, sinks using runAllAux.induct L excl with
  | case1 topic sinks =>
    rw [runAllAux.eq_def, scanPacketsAux.eq_def]
    simp [routeFold]
  | case2 topic sinks b r hb ih =>
    rw [runAllAux.eq_def, scanPacketsAux.eq_def]
    simp only [if_pos hb]
    exact ih
  | case3 topic sinks b r hb hsuf ih =>
    rw [runAllAux.eq_def, scanPacketsAux.eq_def]
    simp only [if_neg hb, hsuf]
    exact ih
  | case4 topic sinks b r hb suf hsuf hstoi =>
    rw [runAllAux.eq_def, scanPacketsAux.eq_def]
    simp only [if_neg hb, hsuf, hstoi]
    simp [routeFold]
  | case5 topic sinks b r hb suf hsuf n hstoi hneg =>
    rw [runAllAux.eq_def, scanPacketsAux.eq_def]
    simp only [if_neg hb, hsuf, hstoi, if_pos hneg]
    simp [routeFold]
  | case6 topic sinks b r hb suf hsuf n hstoi hneg hlen =>
    rw [runAllAux.eq_def, scanPacketsAux.eq_def]
    simp only [if_neg hb, hsuf, hstoi, if_neg hneg, if_pos hlen]
    simp [routeFold]
  | case7 topic sinks b r hb suf hsuf n hstoi hneg hlen hwf ih =>
    rw [runAllAux.eq_def, scanPacketsAux.eq_def]
    simp only [if_neg hb, hsuf, hstoi, if_neg hneg, if_neg hlen, if_pos hwf]
    rw [ih, runBodyAll_eq_fold]
    simp [routeFold, List.foldl_append]
  | case8 topic sinks b r hb suf hsuf n hstoi hneg hlen hwf ih =>
    rw [runAllAux.eq_def, scanPacketsAux.eq_def]
    simp only [if_neg hb, hsuf, hstoi, if_neg hneg, if_neg hlen, if_neg hwf]
    exact ih

theorem runSingleAux_accum (cid M : Int) (t : List Nat) :
    ∀ (acc : List Nat), (∀ b ∈ t, b ≠ 32) → ∀ (s' : List Nat) (e : Nat)
      (rows : List (List Nat)),
      runSingleAux cid M (t ++ s') acc e rows
        = runSingleAux cid M s' (acc ++ t) e rows := by
  induction t with
  | nil => intro acc _ s' e rows; simp
  | cons b t ih =>
    intro acc hb s' e rows
    have hb1 : b ≠ 32 := hb b (by simp)
    rw [List.cons_append, runSingleAux.eq_def]
    simp only [if_pos hb1]
    rw [ih (acc ++ [b]) (fun x hx => hb x (by simp [hx])) s' e rows]
    simp

theorem runAllAux_accum (L excl : Int) (t : List Nat) :
    ∀ (acc : List Nat), (∀ b ∈ t, b ≠ 32) → ∀ (s' : List Nat) (sinks : Sinks),
      runAllAux L excl (t ++ s') acc sinks
        = runAllAux L excl s' (acc ++ t) sinks := by
  induction t with
  | nil => intro acc _ s' sinks; simp
  | cons b t ih =>
    intro acc hb s' sinks
    have hb1 : b ≠ 32 := hb b (by simp)
    rw [List.cons_append, runAllAux.eq_def]
    simp only [if_pos hb1]
    rw [ih (acc ++ [b]) (fun x hx => hb x (by simp [hx])) s' sinks]
    simp

/-- A topic whose `_s` suffix makes `std::stoi` throw, or parses to a
negative size that makes the `std::vector` constructor throw, aborts the
single-channel run with the exception unhandled. -/
theorem runSingle_abort_bad_suffix (cid M : Int) (t rest : List Nat)
    (ht : ∀ b ∈ t, b ≠ 32) (suf : List Nat)
    (hsuf : suffixAfterLastUS t = some suf)
    (habort : stoiModel suf = none ∨ ∃ n, stoiModel suf = some n ∧ n < 0) :
    (runSingleAux cid M (t ++ 32 :: rest) [] 0 []).aborted = true := by
  rw [runSingleAux_accum cid M t [] ht (32 :: rest) 0 []]
  rw [runSingleAux.eq_def]
  simp only [List.nil_append, ne_eq, not_true_eq_false, if_false, hsuf]
  rcases habort with h | ⟨n, hn, hneg⟩
  · simp only [h]
  · simp only [hn, if_pos hneg]

/-- Same abort behaviour for the all-channels run. -/
theorem runAll_abort_bad_suffix (L excl : Int) (t rest : List Nat)
    (ht : ∀ b ∈ t, b ≠ 32) (suf : List Nat)
    (hsuf : suffixAfterLastUS t = some suf)
    (habort : stoiModel suf = none ∨ ∃ n, stoiModel suf = some n ∧ n < 0) :
    (runAllAux L excl (t ++ 32 :: rest) [] []).aborted = true := by
  rw [runAllAux_accum L excl t [] ht (32 :: rest) []]
  rw [runAllAux.eq_def]
  simp only [List.nil_append, ne_eq, not_true_eq_false, if_false, hsuf]
  rcases habort with h | ⟨n, hn, hneg⟩
  · simp only [h]
  · simp only [hn, if_pos hneg]

/-- Claim C1 (counterexample): the stream `"foo_s "` carries a topic
whose text after the last `_s` is empty, hence not a parseable
non-negative integer.  The claim says the scan discards the topic and
never aborts; in fact `std::stoi` throws and the run aborts. -/
theorem C1_stoi_abort_counterexample :
    (export_single_channel 2 0 [102, 111, 111, 95, 115, 32]).aborted = true := by
  have h := runSingle_abort_bad_suffix 2 0 [102, 111, 111, 95, 115] []
    (by decide) [] (by decide) (Or.inl (by decide))
  exact h

/-- Claim C1 (corrected): a topic with no `_s` substring at all is
discarded and scanning resumes at the next byte; but when the topic has
an `_s` whose following text is unparseable (or parses negative), the
uncaught `std::stoi` / `std::vector` exception aborts the run. -/
theorem C1_malformed_suffix_amended (cid M : Int) (t rest : List Nat)
    (ht : ∀ b ∈ t, b ≠ 32) :
    (suffixAfterLastUS t = none →
      export_single_channel cid M (t ++ 32 :: rest)
        = export_single_channel cid M rest) ∧
    (∀ suf, suffixAfterLastUS t = some suf →
      (stoiModel suf = none ∨ ∃ n, stoiModel suf = some n ∧ n < 0) →
      (export_single_channel cid M (t ++ 32 :: rest)).aborted = true) := by
  constructor
  · intro hnone
    rw [export_single_channel, runSingleAux_accum cid M t [] ht (32 :: rest) 0 []]
    rw [runSingleAux.eq_def]
    simp only [List.nil_append, ne_eq, not_true_eq_false, if_false, hnone]
    rfl
  · intro suf hsuf habort
    exact runSingle_abort_bad_suffix cid M t rest ht suf hsuf habort

theorem C1_malformed_suffix_amended_witness :
    (export_single_channel 0 0 ([102, 95, 115] ++ 32 :: [])).aborted = true :=
  (C1_malformed_suffix_amended 0 0 [102, 95, 115] [] (by decide)).2 []
    (by decide) (Or.inl (by decide))

/-- Claim C6 (confirmed): when the last header of the stream declares
`n` body bytes but fewer remain, both drivers discard the partial frame
and end the run cleanly, keeping exactly the counts, rows and sinks
accumulated from the frames already fully processed, with no abort. -/
theorem C6_truncated_stream (cid M L excl : Int) (t rest suf : List Nat)
    (n : Int) (e : Nat) (rows : List (List Nat)) (sinks : Sinks)
    (ht : ∀ b ∈ t, b ≠ 32) (hsuf : suffixAfterLastUS t = some suf)
    (hstoi : stoiModel suf = some n) (hn : ¬n < 0)
    (hlen : rest.length < n.toNat) :
    runSingleAux cid M (t ++ 32 :: rest) [] e rows = ⟨e, rows, false⟩ ∧
    runAllAux L excl (t ++ 32 :: rest) [] sinks = ⟨sinks, false⟩ := by
  constructor
  · rw [runSingleAux_accum cid M t [] ht (32 :: rest) e rows]
    rw [runSingleAux.eq_def]
    simp only [List.nil_append, ne_eq, not_true_eq_false, if_false, hsuf, hstoi,
      if_neg hn, if_pos hlen]
  · rw [runAllAux_accum L excl t [] ht (32 :: rest) sinks]
    rw [runAllAux.eq_def]
    simp only [List.nil_append, ne_eq, not_true_eq_false, if_false, hsuf, hstoi,
      if_neg hn, if_pos hlen]

theorem C6_truncated_stream_witness :
    runSingleAux 0 0 ([95, 115, 53] ++ 32 :: [1, 2, 3]) [] 7 [[9]] = ⟨7, [[9]], false⟩ ∧
    runAllAux 0 (-1) ([95, 115, 53] ++ 32 :: [1, 2, 3]) [] [(4, 1, [[8]])]
      = ⟨[(4, 1, [[8]])], false⟩ :=
  C6_truncated_stream 0 0 0 (-1) [95, 115, 53] [1, 2, 3] [53] 5 7 [[9]]
    [(4, 1, [[8]])] (by decide) (by decide) (by decide) (by decide) (by decide)

/-- The stored sample rows of the packets whose 8-bit channel equals the
integer `cid`, in decode order. -/
def matchingSamples (cid : Int) (ps : List WaveformPacket) : List (List Nat) :=
  (ps.filter (fun p => (p.channel : Int) == cid)).map (fun p => p.samples)

/-- Reference per-channel sink evolution: fold the cap-checked write of
`sinkUpdate` over the rows routed to one channel, starting from an
absent (`none`) or present sink state. -/
def refSinkFold (L : Int) (o : Option (Nat × List (List Nat)))
    (rs : List (List Nat)) : Option (Nat × List (List Nat)) :=
  rs.foldl
    (fun o samples =>
      some (sinkUpdate L (o.getD (0, [])).1 (o.getD (0, [])).2 samples))
    o

theorem lookupSink_setSink (sks : Sinks) (ch ch' : Int) (v : Nat × List (List Nat)) :
    lookupSink (setSink sks ch v) ch'
      = if ch = ch' then some v else lookupSink sks ch' := by
  induction sks with
  | nil => simp [setSink, lookupSink]
  | cons s sks ih =>
    by_cases h : s.1 = ch
    · simp only [setSink, if_pos h, lookupSink]
      by_cases h2 : ch = ch'
      · simp [h2]
      · simp only [if_neg h2]
        rw [if_neg (by omega : ¬s.1 = ch')]
    · simp only [setSink, if_neg h, lookupSink]
      by_cases h2 : s.1 = ch'
      · rw [if_pos h2, if_neg (by omega : ¬ch = ch'), if_pos h2]
      · rw [if_neg h2, if_neg h2, ih]

theorem mem_setSink {sks : Sinks} {ch : Int} {v : Nat × List (List Nat)}
    {s : Int × Nat × List (List Nat)} (h : s ∈ setSink sks ch v) :
    s.1 = ch ∨ s ∈ sks := by
  induction sks with
  | nil =>
    simp [setSink] at h
    subst h
    simp
  | cons t sks ih =>
    by_cases ht : t.1 = ch
    · rw [setSink, if_pos ht] at h
      rcases List.mem_cons.1 h with h1 | h1
      · subst h1; simp
      · right; exact List.mem_cons_of_mem _ h1
    · rw [setSink, if_neg ht] at h
      rcases List.mem_cons.1 h with h1 | h1
      · subst h1; simp
      · rcases ih h1 with h2 | h2
        · exact Or.inl h2
        · exact Or.inr (List.mem_cons_of_mem _ h2)

theorem lookupSink_routeStep (L : Int) (sks : Sinks) (ch ch' : Int)
    (samples : List Nat) :
    lookupSink (routeStep L sks ch samples) ch'
      = if ch = ch'
        then some (sinkUpdate L ((lookupSink sks ch).getD (0, [])).1
                     ((lookupSink sks ch).getD (0, [])).2 samples)
        else lookupSink sks ch' := by
  rw [routeStep]
  cases h : lookupSink sks ch with
  | none =>
    rw [lookupSink_setSink]
    rfl
  | some v =>
    obtain ⟨c, rows⟩ := v
    rw [lookupSink_setSink]
    rfl

theorem mem_routeStep {L : Int} {sks : Sinks} {ch : Int} {samples : List Nat}
    {s : Int × Nat × List (List Nat)} (h : s ∈ routeStep L sks ch samples) :
    s.1 = ch ∨ s ∈ sks := by
  rw [routeStep] at h
  rcases hl : lookupSink sks ch with _ | ⟨c, rows⟩
  · rw [hl] at h
    exact mem_setSink h
  · rw [hl] at h
    exact mem_setSink h

theorem routeFold_keys (L excl : Int) (ps : List WaveformPacket) :
    ∀ (sks : Sinks), (∀ s ∈ sks, s.1 ≠ excl) →
      ∀ s ∈ routeFold L excl sks ps, s.1 ≠ excl := by
  induction ps with
  | nil => intro sks hs; simpa [routeFold] using hs
  | cons p ps ih =>
    intro sks hs s hmem
    rw [routeFold, List.foldl_cons] at hmem
    by_cases hex : (p.channel : Int) = excl
    · rw [if_pos hex] at hmem
      exact ih sks hs s hmem
    · rw [if_neg hex] at hmem
      refine ih _ ?_ s hmem
      intro t htmem
      rcases mem_routeStep htmem with h1 | h1
      · rw [h1]; exact hex
      · exact hs t h1

theorem refSinkFold_cons (L : Int) (o : Option (Nat × List (List Nat)))
    (r : List Nat) (rs : List (List Nat)) :
    refSinkFold L o (r :: rs)
      = refSinkFold L
          (some (sinkUpdate L (o.getD (0, [])).1 (o.getD (0, [])).2 r)) rs := rfl

theorem matchingSamples_cons (cid : Int) (p : WaveformPacket)
    (ps : List WaveformPacket) :
    matchingSamples cid (p :: ps)
      = if (p.channel : Int) = cid
        then p.samples :: matchingSamples cid ps
        else matchingSamples cid ps := by
  by_cases h : (p.channel : Int) = cid <;>
    simp [matchingSamples, List.filter_cons, h]

theorem lookupSink_routeFold (L excl : Int) (ps : List WaveformPacket) :
    ∀ (sks : Sinks) (ch : Int), ch ≠ excl →
      lookupSink (routeFold L excl sks ps) ch
        = refSinkFold L (lookupSink sks ch) (matchingSamples ch ps) := by
  induction ps with
  | nil => intro sks ch _; simp [routeFold, refSinkFold, matchingSamples]
  | cons p ps ih =>
    intro sks ch hch
    rw [routeFold, List.foldl_cons]
    by_cases hex : (p.channel : Int) = excl
    · rw [if_pos hex]
      have hne : ¬((p.channel : Int) = ch) := by
        rw [hex]
        exact fun hc => hch hc.symm
      rw [matchingSamples_cons, if_neg hne]
      exact ih sks ch hch
    · rw [if_neg hex]
      have hstep := ih (routeStep L sks (p.channel : Int) p.samples) ch hch
      rw [routeFold] at hstep
      rw [hstep, lookupSink_routeStep]
      by_cases hpc : (p.channel : Int) = ch
      · rw [if_pos hpc, matchingSamples_cons, if_pos hpc, refSinkFold_cons, hpc]
      · rw [if_neg hpc, matchingSamples_cons, if_neg hpc]

theorem refSinkFold_unbounded (L : Int) (hL : L ≤ 0) (rs : List (List Nat)) :
    ∀ (c : Nat) (rows : List (List Nat)),
      refSinkFold L (some (c, rows)) rs = some (c + rs.length, rows ++ rs) := by
  induction rs with
  | nil => intro c rows; simp [refSinkFold]
  | cons r rs ih =>
    intro c rows
    rw [refSinkFold_cons]
    have : sinkUpdate L c rows r = (c + 1, rows ++ [r]) := by
      rw [sinkUpdate, if_pos (Or.inl hL)]
    rw [Option.getD_some] at *
    simp only [this]
    rw [ih (c + 1) (rows ++ [r])]
    simp [List.append_assoc]
    omega

theorem refSinkFold_bounded (L : Int) (hL : 0 < L) (rs : List (List Nat)) :
    ∀ (c : Nat) (rows : List (List Nat)),
      refSinkFold L (some (c, rows)) rs
        = some (c + min (L.toNat - c) rs.length, rows ++ rs.take (L.toNat - c)) := by
  induction rs with
  | nil => intro c rows; simp [refSinkFold]
  | cons r rs ih =>
    intro c rows
    rw [refSinkFold_cons, Option.getD_some]
    by_cases hc : (c : Int) < L
    · have hstep : sinkUpdate L c rows r = (c + 1, rows ++ [r]) := by
        rw [sinkUpdate, if_pos (Or.inr hc)]
      simp only [hstep]
      rw [ih (c + 1) (rows ++ [r])]
      have h1 : L.toNat - c = (L.toNat - (c + 1)) + 1 := by omega
      rw [h1, List.take_succ_cons]
      simp [List.append_assoc]
      omega
    · have hstep : sinkUpdate L c rows r = (c, rows) := by
        rw [sinkUpdate, if_neg (by omega)]
      simp only [hstep]
      rw [ih c rows]
      have h1 : L.toNat - c = 0 := by omega
      simp [h1]

/-- Claim C5 (confirmed): in all-channels mode no sink entry is ever
keyed by `exclude_channel`, and for every other channel the final sink
state is exactly the `sinkUpdate` fold over the rows of the decoded
packets carrying that channel, in decode order — i.e. every non-excluded
packet is routed to the sink keyed by its own channel field, created on
first use (`none` start). -/
theorem C5_all_channels_routing (stream : List Nat) (L excl : Int) :
    (∀ s ∈ (export_all_channels L excl stream).sinks, s.1 ≠ excl) ∧
    (∀ ch : Int, ch ≠ excl →
      lookupSink (export_all_channels L excl stream).sinks ch
        = refSinkFold L none (matchingSamples ch (scanPackets stream).1)) := by
  rw [export_all_channels, runAllAux_spec]
  constructor
  · exact routeFold_keys L excl (scanPacketsAux stream []).1 [] (by simp)
  · intro ch hch
    have h := lookupSink_routeFold L excl (scanPacketsAux stream []).1 [] ch hch
    rw [scanPackets]
    exact h

/-- Claim C8 (counterexample): the claim says that with an unset cap the
all-channels run stops only at end of stream; on the stream `"x_s "` the
run instead stops mid-stream by aborting on the uncaught `std::stoi`
exception raised for the empty size suffix. -/
theorem C8_abort_counterexample :
    (export_all_channels 0 (-1) [120, 95, 115, 32]).aborted = true :=
  runAll_abort_bad_suffix 0 (-1) [120, 95, 115] [] (by decide) [] (by decide)
    (Or.inl (by decide))

/-- Claim C8 (corrected): per-channel cap semantics hold — with
`max_per_channel = L > 0` a channel having `m` matching decoded packets
ends with count `min L m` and exactly the first `L` matching rows
(packets beyond the cap are silently dropped and the counter stays at
`L`); with `L ≤ 0` every routed packet is written and the count equals
`m`.  The run, however, stops either at end of stream or on the uncaught
exception raised by a malformed size suffix (see C1). -/
theorem C8_per_channel_cap_amended (stream : List Nat) (L excl ch : Int)
    (hch : ch ≠ excl) :
    (0 < L →
      lookupSink (export_all_channels L excl stream).sinks ch
        = if matchingSamples ch (scanPackets stream).1 = [] then none
          else some (min L.toNat (matchingSamples ch (scanPackets stream).1).length,
                     (matchingSamples ch (scanPackets stream).1).take L.toNat)) ∧
    (L ≤ 0 →
      lookupSink (export_all_channels L excl stream).sinks ch
        = if matchingSamples ch (scanPackets stream).1 = [] then none
          else some ((matchingSamples ch (scanPackets stream).1).length,
                     matchingSamples ch (scanPackets stream).1)) := by
  rw [export_all_channels, runAllAux_spec]
  have h := lookupSink_routeFold L excl (scanPacketsAux stream []).1 [] ch hch
  simp only [lookupSink] at h
  rw [scanPackets]
  constructor
  · intro hL
    rw [h]
    cases hms : matchingSamples ch (scanPacketsAux stream []).1 with
    | nil => simp [refSinkFold]
    | cons r rs =>
      rw [refSinkFold_cons]
      have hupd : sinkUpdate L 0 [] r = (1, [r]) := by
        rw [sinkUpdate, if_pos (Or.inr (by omega))]
        simp
      simp only [Option.getD_none, hupd]
      rw [refSinkFold_bounded L hL rs 1 [r]]
      rw [if_neg (by simp)]
      obtain ⟨k, hk⟩ : ∃ k, L.toNat = k + 1 := ⟨L.toNat - 1, by omega⟩
      rw [hk, List.take_succ_cons, List.length_cons]
      simp only [Nat.add_sub_cancel, Option.some_inj, Prod.mk.injEq]
      constructor
      · omega
      · simp
  · intro hL
    rw [h]
    cases hms : matchingSamples ch (scanPacketsAux stream []).1 with
    | nil => simp [refSinkFold]
    | cons r rs =>
      rw [refSinkFold_cons]
      have hupd : sinkUpdate L 0 [] r = (1, [r]) := by
        rw [sinkUpdate, if_pos (Or.inl hL)]
        simp
      simp only [Option.getD_none, hupd]
      rw [refSinkFold_unbounded L hL rs 1 [r]]
      rw [if_neg (by simp)]
      simp only [Option.some_inj, Prod.mk.injEq, List.length_cons]
      constructor
      · omega
      · simp

theorem foldSingle_char (cid M : Int) (hM : 0 < M) (ps : List WaveformPacket) :
    ∀ (e : Nat) (rows : List (List Nat)), e < M.toNat →
      (foldSingle cid M ps e rows).1
          = min M.toNat (e + (matchingSamples cid ps).length) ∧
      (foldSingle cid M ps e rows).2.1
          = rows ++ (matchingSamples cid ps).take (M.toNat - e) := by
  induction ps with
  | nil =>
    intro e rows he
    simp [foldSingle, matchingSamples]
    omega
  | cons p ps ih =>
    intro e rows he
    rw [matchingSamples_cons]
    by_cases hc : (p.channel : Int) = cid
    · rw [if_pos hc]
      simp only [foldSingle, if_pos hc]
      by_cases hm : 0 < M ∧ M ≤ (e : Int) + 1
      · rw [if_pos hm]
        have heM : e + 1 = M.toNat := by omega
        obtain ⟨k, hk⟩ : ∃ k, M.toNat - e = k + 1 := ⟨M.toNat - e - 1, by omega⟩
        rw [hk, List.take_succ_cons]
        have hk0 : k = 0 := by omega
        subst hk0
        simp [List.length_cons]
        omega
      · rw [if_neg hm]
        have he1 : e + 1 < M.toNat := by omega
        have := ih (e + 1) (rows ++ [p.samples]) he1
        rw [this.1, this.2]
        obtain ⟨k, hk⟩ : ∃ k, M.toNat - e = k + 1 := ⟨M.toNat - e - 1, by omega⟩
        rw [hk, List.take_succ_cons]
        have hk1 : M.toNat - (e + 1) = k := by omega
        rw [hk1]
        constructor
        · simp [List.length_cons]
          omega
        · simp [List.append_assoc]
    · rw [if_neg hc]
      simp only [foldSingle, if_neg hc]
      exact ih e rows he

/-- Claim C4 (confirmed): in single-channel mode with `max_waveforms =
M > 0`, the whole run exports exactly `min M m` rows, where `m` is the
number of decoded packets whose channel equals the target, and the rows
written are exactly the first `min M m` matching rows — nothing is
written past the limit, even if matching packets remain later in the
stream. -/
theorem C4_single_channel_limit (stream : List Nat) (cid M : Int)
    (hM : 0 < M) :
    (export_single_channel cid M stream).exported
        = min M.toNat (matchingSamples cid (scanPackets stream).1).length ∧
    (export_single_channel cid M stream).rows
        = (matchingSamples cid (scanPackets stream).1).take M.toNat := by
  rw [export_single_channel, runSingleAux_spec]
  have h := foldSingle_char cid M hM (scanPacketsAux stream []).1 0 [] (by omega)
  rw [scanPackets]
  rw [mkSingleResult]
  dsimp only
  constructor
  · rw [h.1]
    simp
  · rw [h.2]
    simp

/-- The channel field of every packet the scan decodes is an 8-bit
value. -/
theorem demux_channel_lt (buffer : List Nat) (pos : Nat) :
    ∀ p ∈ (demuxLoop buffer pos).1, p.channel < 256 := by
  induction pos using demuxLoop.induct buffer with
  | case1 pos h p' hr =>
    rw [demuxLoop.eq_def]
    simp only [dif_pos h]
    split <;> simp_all
  | case2 pos h pkt p' hr ih =>
    rw [demuxLoop.eq_def]
    simp only [dif_pos h]
    split
    · simp_all
    · next pkt2 p2 hr2 =>
      rw [hr] at hr2
      injection hr2 with ha hb
      injection ha with ha
      subst ha
      subst hb
      intro p hp
      rcases List.mem_cons.1 hp with h1 | h1
      · subst h1
        exact read_channel_lt hr
      · exact ih p h1
  | case3 pos h =>
    rw [demuxLoop.eq_def]
    simp only [dif_neg h]
    simp

theorem scan_channel_lt (stream topic : List Nat) :
    ∀ p ∈ (scanPacketsAux stream topic).1, p.channel < 256 := by
  induction stream, topic using scanPacketsAux.induct with
  | case1 topic =>
    rw [scanPacketsAux.eq_def]
    simp
  | case2 topic b r hb ih =>
    rw [scanPacketsAux.eq_def]
    simp only [if_pos hb]
    exact ih
  | case3 topic b r hb hsuf ih =>
    rw [scanPacketsAux.eq_def]
    simp only [if_neg hb, hsuf]
    exact ih
  | case4 topic b r hb suf hsuf hstoi =>
    rw [scanPacketsAux.eq_def]
    simp only [if_neg hb, hsuf, hstoi]
    simp
  | case5 topic b r hb suf hsuf n hstoi hneg =>
    rw [scanPacketsAux.eq_def]
    simp only [if_neg hb, hsuf, hstoi, if_pos hneg]
    simp
  | case6 topic b r hb suf hsuf n hstoi hneg hlen =>
    rw [scanPacketsAux.eq_def]
    simp only [if_neg hb, hsuf, hstoi, if_neg hneg, if_pos hlen]
    simp
  | case7 topic b r hb suf hsuf n hstoi hneg hlen hwf ih =>
    rw [scanPacketsAux.eq_def]
    simp only [if_neg hb, hsuf, hstoi, if_neg hneg, if_neg hlen, if_pos hwf]
    intro p hp
    rcases List.mem_append.1 hp with h1 | h1
    · exact demux_channel_lt _ 0 p h1
    · exact ih p h1
  | case8 topic b r hb suf hsuf n hstoi hneg hlen hwf ih =>
    rw [scanPacketsAux.eq_def]
    simp only [if_neg hb, hsuf, hstoi, if_neg hneg, if_neg hlen, if_neg hwf]
    exact ih

theorem foldSingle_no_match (cid M : Int) (ps : List WaveformPacket) :
    ∀ (e : Nat) (rows : List (List Nat)),
      (∀ p ∈ ps, ¬((p.channel : Int) = cid)) →
      foldSingle cid M ps e rows = (e, rows, false) := by
  induction ps with
  | nil => intro e rows _; rfl
  | cons p ps ih =>
    intro e rows hnm
    have hc : ¬((p.channel : Int) = cid) := hnm p (by simp)
    simp only [foldSingle, if_neg hc]
    exact ih e rows (fun q hq => hnm q (by simp [hq]))

/-- Claim C10 (confirmed): with a target channel outside 0..255 (any
negative value, or any value above 255) no decoded packet's 8-bit
channel field can equal it, so on every stream the run exports zero
packets and writes no rows; the per-channel CSV file is still created —
it is opened before the scan — and its contents, the returned `rows`,
are empty. -/
theorem C10_out_of_range_channel (stream : List Nat) (cid M : Int)
    (hcid : cid < 0 ∨ 255 < cid) :
    (export_single_channel cid M stream).exported = 0 ∧
    (export_single_channel cid M stream).rows = [] := by
  rw [export_single_channel, runSingleAux_spec]
  have hnm : ∀ p ∈ (scanPacketsAux stream []).1, ¬((p.channel : Int) = cid) := by
    intro p hp hc
    have hlt := scan_channel_lt stream [] p hp
    omega
  have h := foldSingle_no_match cid M (scanPacketsAux stream []).1 0 [] hnm
  rw [mkSingleResult]
  dsimp only
  rw [h]
  exact ⟨rfl, rfl⟩

/-- A stream holding one frame with topic `"data_abcd_waveforms_s28"`
whose 28-byte body is two zero packets (channel 0, sample_count 0). -/
def wfStream2 : List Nat :=
  wfTopicBytes ++ [95, 115, 50, 56, 32] ++ List.replicate 28 0

theorem C4_single_channel_limit_witness :
    (export_single_channel 0 1 wfStream2).exported
        = min (1 : Int).toNat (matchingSamples 0 (scanPackets wfStream2).1).length ∧
    (export_single_channel 0 1 wfStream2).rows
        = (matchingSamples 0 (scanPackets wfStream2).1).take (1 : Int).toNat :=
  C4_single_channel_limit wfStream2 0 1 (by decide)

theorem C5_all_channels_routing_witness :
    lookupSink (export_all_channels 0 (-1) wfStream2).sinks 0
      = refSinkFold 0 none (matchingSamples 0 (scanPackets wfStream2).1) :=
  (C5_all_channels_routing wfStream2 0 (-1)).2 0 (by decide)

theorem C8_per_channel_cap_amended_witness :
    ((0 : Int) < 1 →
      lookupSink (export_all_channels 1 (-1) wfStream2).sinks 0
        = if matchingSamples 0 (scanPackets wfStream2).1 = [] then none
          else some (min (1 : Int).toNat
                       (matchingSamples 0 (scanPackets wfStream2).1).length,
                     (matchingSamples 0 (scanPackets wfStream2).1).take
                       (1 : Int).toNat)) ∧
    ((1 : Int) ≤ 0 →
      lookupSink (export_all_channels 1 (-1) wfStream2).sinks 0
        = if matchingSamples 0 (scanPackets wfStream2).1 = [] then none
          else some ((matchingSamples 0 (scanPackets wfStream2).1).length,
                     matchingSamples 0 (scanPackets wfStream2).1)) :=
  C8_per_channel_cap_amended wfStream2 1 (-1) 0 (by decide)

theorem C10_out_of_range_channel_witness :
    (export_single_channel (-1) 0 wfStream2).exported = 0 ∧
    (export_single_channel (-1) 0 wfStream2).rows = [] :=
  C10_out_of_range_channel wfStream2 (-1) 0 (Or.inl (by decide))


theorem byteAt_append (a b : List Nat) (i : Nat) :
    byteAt (a ++ b) (a.length + i) = byteAt b i := by
  rw [byteAt, byteAt, List.getD_append_right a b 0 (a.length + i) (by omega)]
  have e : a.length + i - a.length = i := by omega
  rw [e]

theorem readLE_append (a b : List Nat) (pos : Nat) :
    ∀ n, readLE (a ++ b) (a.length + pos) n = readLE b pos n := by
  intro n
  induction n generalizing pos with
  | zero => rfl
  | succ n ih =>
    rw [readLE, readLE, byteAt_append]
    have e : a.length + pos + 1 = a.length + (pos + 1) := by omega
    rw [e, ih (pos + 1)]

theorem rawSamples_append (a b : List Nat) (pos n : Nat) :
    rawSamples (a ++ b) (a.length + pos) n = rawSamples b pos n := by
  unfold rawSamples
  apply List.map_congr_left
  intro i _
  have e : a.length + pos + 2 * i = a.length + (pos + 2 * i) := by omega
  rw [e, readLE_append]

theorem read_waveform_packet_append (a b : List Nat) (pos : Nat) :
    read_waveform_packet (a ++ b) (a.length + pos)
      = ((read_waveform_packet b pos).1,
         a.length + (read_waveform_packet b pos).2) := by
  have e9 : a.length + pos + 9 = a.length + (pos + 9) := by omega
  have e8 : a.length + pos + 8 = a.length + (pos + 8) := by omega
  have e13 : a.length + pos + 13 = a.length + (pos + 13) := by omega
  have e14 : a.length + pos + 14 = a.length + (pos + 14) := by omega
  simp only [read_waveform_packet, List.length_append]
  rw [e9, readLE_append]
  by_cases h1 : b.length < pos + 14
  · rw [if_pos (by omega), if_pos h1]
  · rw [if_neg (by omega), if_neg h1]
    by_cases h2 : b.length < pos + 14 + readLE b (pos + 9) 4 * 2 % 4294967296
    · rw [if_pos (by omega), if_pos h2]
      simp only [Prod.mk.injEq]
      exact ⟨by trivial, by omega⟩
    · rw [if_neg (by omega), if_neg h2]
      rw [readLE_append a b pos 8, e8, byteAt_append, e13, byteAt_append,
        e14, rawSamples_append]
      simp only [Prod.mk.injEq]
      exact ⟨by trivial, by omega⟩

theorem demuxLoop_none {buffer : List Nat} {pos p' : Nat}
    (h : pos < buffer.length)
    (hr : read_waveform_packet buffer pos = (none, p')) :
    demuxLoop buffer pos = ([], p') := by
  rw [demuxLoop.eq_def, dif_pos h]
  split
  · next q hq =>
    rw [hr] at hq
    injection hq with h1 h2
    rw [h2]
  · next pkt q hq =>
    rw [hr] at hq
    injection hq with h1 h2
    exact absurd h1 (by simp)

theorem demuxLoop_some {buffer : List Nat} {pos p' : Nat} {pkt : WaveformPacket}
    (h : pos < buffer.length)
    (hr : read_waveform_packet buffer pos = (some pkt, p')) :
    demuxLoop buffer pos
      = (pkt :: (demuxLoop buffer p').1, (demuxLoop buffer p').2) := by
  rw [demuxLoop.eq_def, dif_pos h]
  split
  · next q hq =>
    rw [hr] at hq
    injection hq with h1 h2
    exact absurd h1 (by simp)
  · next pkt2 q hq =>
    rw [hr] at hq
    injection hq with h1 h2
    injection h1 with h1
    rw [h1, h2]

theorem demuxLoop_end {buffer : List Nat} {pos : Nat}
    (h : ¬pos < buffer.length) : demuxLoop buffer pos = ([], pos) := by
  rw [demuxLoop.eq_def, dif_neg h]

theorem demuxLoop_append (a b : List Nat) (pos : Nat) :
    demuxLoop (a ++ b) (a.length + pos)
      = ((demuxLoop b pos).1, a.length + (demuxLoop b pos).2) := by
  induction pos using demuxLoop.induct b with
  | case1 pos h p' hr =>
    have hL : a.length + pos < (a ++ b).length := by
      rw [List.length_append]; omega
    have hra : read_waveform_packet (a ++ b) (a.length + pos)
        = (none, a.length + p') := by
      rw [read_waveform_packet_append, hr]
    rw [demuxLoop_none h hr, demuxLoop_none hL hra]
  | case2 pos h pkt p' hr ih =>
    have hL : a.length + pos < (a ++ b).length := by
      rw [List.length_append]; omega
    have hra : read_waveform_packet (a ++ b) (a.length + pos)
        = (some pkt, a.length + p') := by
      rw [read_waveform_packet_append, hr]
    rw [demuxLoop_some h hr, demuxLoop_some hL hra, ih]
  | case3 pos h =>
    have hL : ¬(a.length + pos < (a ++ b).length) := by
      rw [List.length_append]; omega
    rw [demuxLoop_end h, demuxLoop_end hL]

/-- `k` bytes encoding `v` little-endian (the wire format of the fixed
width header fields and samples). -/
def natLE : Nat → Nat → List Nat
  | 0, _ => []
  | k + 1, v => v % 256 :: natLE k (v / 256)

theorem length_natLE (k : Nat) : ∀ v, (natLE k v).length = k := by
  induction k with
  | zero => intro v; rfl
  | succ k ih => intro v; simp [natLE, ih]

theorem readLE_cons_succ (x : Nat) (l : List Nat) (pos : Nat) :
    ∀ n, readLE (x :: l) (pos + 1) n = readLE l pos n := by
  intro n
  induction n generalizing pos with
  | zero => rfl
  | succ n ih =>
    rw [readLE, readLE]
    have h1 : byteAt (x :: l) (pos + 1) = byteAt l pos := by
      simp [byteAt]
    rw [h1, ih (pos + 1)]

theorem rawSamples_cons_succ (x : Nat) (l : List Nat) (pos n : Nat) :
    rawSamples (x :: l) (pos + 1) n = rawSamples l pos n := by
  unfold rawSamples
  apply List.map_congr_left
  intro i _
  have e : pos + 1 + 2 * i = (pos + 2 * i) + 1 := by omega
  rw [e, readLE_cons_succ]

theorem readLE_natLE (k : Nat) : ∀ (v : Nat), v < 256 ^ k → ∀ (rest : List Nat),
    readLE (natLE k v ++ rest) 0 k = v := by
  induction k with
  | zero =>
    intro v hv rest
    have : v = 0 := by simpa using hv
    simp [readLE, this]
  | succ k ih =>
    intro v hv rest
    rw [natLE, List.cons_append, readLE]
    have hb : byteAt (v % 256 :: (natLE k (v / 256) ++ rest)) 0 = v % 256 := by
      simp [byteAt]
    rw [hb]
    have h1 := readLE_cons_succ (v % 256) (natLE k (v / 256) ++ rest) 0 k
    norm_num at h1
    rw [h1]
    rw [ih (v / 256) (by
      rw [Nat.div_lt_iff_lt_mul (by norm_num : (0:Nat) < 256)]
      rw [← pow_succ]
      exact hv) rest]
    omega

theorem readLE_flat (samples : List Nat) :
    ∀ (tail : List Nat), (∀ s ∈ samples, s < 256 ^ 2) →
    ∀ i, i < samples.length →
      readLE ((samples.map (fun s => natLE 2 s)).flatten ++ tail) (2 * i) 2
        = samples.getD i 0 := by
  induction samples with
  | nil => intro tail _ i hi; simp at hi
  | cons s ss ih =>
    intro tail hs i hi
    rw [List.map_cons, List.flatten_cons, List.append_assoc]
    cases i with
    | zero =>
      have e : 2 * 0 = 0 := rfl
      rw [e]
      exact readLE_natLE 2 s (hs s (by simp)) _
    | succ i =>
      have e : 2 * (i + 1) = (natLE 2 s).length + 2 * i := by
        rw [length_natLE]
        omega
      rw [e, readLE_append]
      rw [ih _ (fun x hx => hs x (by simp [hx])) i (by simp at hi; omega)]
      rfl

theorem rawSamples_of_flat (samples : List Nat)
    (hs : ∀ s ∈ samples, s < 256 ^ 2) (tail : List Nat) :
    rawSamples ((samples.map (fun s => natLE 2 s)).flatten ++ tail) 0
        samples.length
      = samples := by
  apply List.ext_getElem
  · rw [length_rawSamples]
  · intro n h1 h2
    rw [length_rawSamples] at h1
    simp only [rawSamples, List.getElem_map, List.getElem_range]
    have h := readLE_flat samples tail hs n h1
    have e : 0 + 2 * n = 2 * n := by omega
    rw [e, h, List.getD_eq_getElem samples 0 h2]

theorem length_flat2 (samples : List Nat) :
    ((samples.map (fun s => natLE 2 s)).flatten).length = 2 * samples.length := by
  induction samples with
  | nil => rfl
  | cons s ss ih =>
    rw [List.map_cons, List.flatten_cons, List.length_append, ih, length_natLE]
    simp only [List.length_cons]
    omega

/-- The exact wire bytes of one well-formed packet: 8-byte timestamp,
1-byte channel, 4-byte sample count, 1-byte gates count, then the
2-byte samples, all little-endian. -/
def wfPacketBytes (p : WaveformPacket) : List Nat :=
  natLE 8 p.timestamp ++ [p.channel] ++ natLE 4 p.sample_count
    ++ [p.gates_count] ++ (p.samples.map (fun s => natLE 2 s)).flatten

/-- A complete, well-formed packet: every field fits its wire width and
the declared sample count equals the number of samples present. -/
def wellFormedPacket (p : WaveformPacket) : Prop :=
  p.timestamp < 256 ^ 8 ∧ p.channel < 256 ∧ p.gates_count < 256 ∧
  p.sample_count = p.samples.length ∧ p.samples.length < 256 ^ 4 ∧
  ∀ s ∈ p.samples, s < 256 ^ 2

instance (p : WaveformPacket) : Decidable (wellFormedPacket p) := by
  unfold wellFormedPacket
  infer_instance

/-- The stored form of a packet after the trailing-4 trim of source
lines 69–70. -/
def trimPacket (p : WaveformPacket) : WaveformPacket :=
  { p with samples := if 4 ≤ p.samples.length
                      then p.samples.take (p.samples.length - 4)
                      else p.samples }

theorem read_encoded (ts ch sc g : Nat) (samples tail : List Nat)
    (hts : ts < 256 ^ 8) (hch : ch < 256) (hsc2 : sc < 256 ^ 4) (hg : g < 256)
    (hsmp : ∀ s ∈ samples, s < 256 ^ 2) (hsc : sc = samples.length) :
    read_waveform_packet
        (natLE 8 ts ++ (ch :: (natLE 4 sc ++ (g ::
          ((samples.map (fun s => natLE 2 s)).flatten ++ tail))))) 0
      = (some ⟨ts, ch, sc, g,
              if 4 ≤ samples.length then samples.take (samples.length - 4)
              else samples⟩,
         14 + samples.length * 2) := by
  set FT := (samples.map (fun s => natLE 2 s)).flatten ++ tail with hFT
  set R2 := natLE 4 sc ++ (g :: FT) with hR2
  set R1 := ch :: R2 with hR1
  have lFT : FT.length = 2 * samples.length + tail.length := by
    rw [hFT, List.length_append, length_flat2]
  have hBL : (natLE 8 ts ++ R1).length = 14 + 2 * samples.length + tail.length := by
    rw [List.length_append, length_natLE, hR1, List.length_cons, hR2,
      List.length_append, length_natLE, List.length_cons, lFT]
    omega
  have h_ts : readLE (natLE 8 ts ++ R1) 0 8 = ts := readLE_natLE 8 ts hts R1
  have h_ch : byteAt (natLE 8 ts ++ R1) 8 = ch := by
    have h := byteAt_append (natLE 8 ts) R1 0
    rw [length_natLE] at h
    norm_num at h
    rw [h, hR1]
    simp only [byteAt, List.getD_cons_zero]
    omega
  have h_sc : readLE (natLE 8 ts ++ R1) 9 4 = sc := by
    have h := readLE_append (natLE 8 ts) R1 1 4
    rw [length_natLE] at h
    norm_num at h
    rw [h, hR1]
    have h2 := readLE_cons_succ ch R2 0 4
    norm_num at h2
    rw [h2, hR2]
    exact readLE_natLE 4 sc hsc2 _
  have h_g : byteAt (natLE 8 ts ++ R1) 13 = g := by
    have h := byteAt_append (natLE 8 ts) R1 5
    rw [length_natLE] at h
    norm_num at h
    rw [h, hR1]
    have h2 : byteAt (ch :: R2) 5 = byteAt R2 4 := by
      simp only [byteAt]
      rw [show (5 : Nat) = 4 + 1 from rfl, List.getD_cons_succ]
    rw [h2, hR2]
    have h3 := byteAt_append (natLE 4 sc) (g :: FT) 0
    rw [length_natLE] at h3
    norm_num at h3
    rw [h3]
    simp only [byteAt, List.getD_cons_zero]
    omega
  have h_raw : rawSamples (natLE 8 ts ++ R1) 14 sc = samples := by
    have h := rawSamples_append (natLE 8 ts) R1 6 sc
    rw [length_natLE] at h
    norm_num at h
    rw [h, hR1]
    rw [show (6 : Nat) = 5 + 1 from rfl, rawSamples_cons_succ, hR2]
    have h3 := rawSamples_append (natLE 4 sc) (g :: FT) 1 sc
    rw [length_natLE] at h3
    norm_num at h3
    rw [h3]
    rw [show (1 : Nat) = 0 + 1 from rfl, rawSamples_cons_succ, hFT, hsc]
    exact rawSamples_of_flat samples hsmp tail
  simp only [read_waveform_packet, Nat.zero_add]
  rw [if_neg (by omega)]
  rw [h_sc]
  rw [if_neg (by
    have hm := Nat.mod_le (sc * 2) 4294967296
    omega)]
  rw [h_ts, h_ch, h_g, h_raw, hsc]

theorem read_wfPacketBytes (p : WaveformPacket) (hp : wellFormedPacket p)
    (tail : List Nat) :
    read_waveform_packet (wfPacketBytes p ++ tail) 0
      = (some (trimPacket p), 14 + p.samples.length * 2) := by
  obtain ⟨hts, hch, hg, hsc, hslen, hsmp⟩ := hp
  rw [wfPacketBytes]
  simp only [List.append_assoc, List.singleton_append]
  have h := read_encoded p.timestamp p.channel p.sample_count p.gates_count
    p.samples tail hts hch (by omega) hg hsmp hsc
  rw [trimPacket]
  exact h

/-- Claim C9 (confirmed): a waveform body that is the exact
concatenation of K complete well-formed packets with no trailing bytes
demultiplexes to exactly those K packets (post-trim) in wire order, with
the loop consuming the whole body. -/
theorem C9_demux_roundtrip (ps : List WaveformPacket)
    (hps : ∀ p ∈ ps, wellFormedPacket p) :
    demuxLoop ((ps.map wfPacketBytes).flatten) 0
      = (ps.map trimPacket, ((ps.map wfPacketBytes).flatten).length) := by
  induction ps with
  | nil =>
    rw [demuxLoop_end (by simp)]
    simp
  | cons p ps ih =>
    have hp := hps p (by simp)
    rw [List.map_cons, List.flatten_cons]
    have hlen : (wfPacketBytes p).length = 14 + 2 * p.samples.length := by
      rw [wfPacketBytes]
      simp only [List.length_append, length_natLE, length_flat2,
        List.length_singleton]
    have hread := read_wfPacketBytes p hp ((ps.map wfPacketBytes).flatten)
    have hpos : (0 : Nat)
        < (wfPacketBytes p ++ (ps.map wfPacketBytes).flatten).length := by
      rw [List.length_append, hlen]
      omega
    rw [demuxLoop_some hpos hread]
    have e : 14 + p.samples.length * 2 = (wfPacketBytes p).length + 0 := by
      rw [hlen]
      omega
    rw [e, demuxLoop_append, ih (fun q hq => hps q (by simp [hq]))]
    rw [List.map_cons, List.length_append]

/-- The two packets of the round-trip scenario in spec §8: channel 2
with six samples `10..60` (trimmed to `10,20`) and channel 2 with two
samples `5,6` (below the trim threshold, kept whole). -/
def pktA : WaveformPacket := ⟨0, 2, 6, 0, [10, 20, 30, 40, 50, 60]⟩

def pktB : WaveformPacket := ⟨0, 2, 2, 0, [5, 6]⟩

theorem C9_demux_roundtrip_witness :
    demuxLoop (([pktA, pktB].map wfPacketBytes).flatten) 0
      = ([pktA, pktB].map trimPacket,
         (([pktA, pktB].map wfPacketBytes).flatten).length) :=
  C9_demux_roundtrip [pktA, pktB] (by decide)
